import Mathlib

/-!
Shallow embedding of the viewport / navigation / animation engine of
`piew.py` (a Python 2 GTK image viewer).  Numeric types: Python floats are
modelled as exact rationals (`ℚ`); Python 2 integer division on `int`s is
floor division and is modelled with `Nat`/`Int` division; `int(...)`
truncates toward zero and `round(...)` rounds half away from zero.
-/

namespace Piew

/-- Floor of a rational, in executable form (euclidean division by the
positive denominator; equal to `⌊q⌋`, see `ratFloor_eq_floor`). -/
def ratFloor (q : ℚ) : ℤ := q.num / (q.den : ℤ)

theorem ratFloor_eq_floor (q : ℚ) : ratFloor q = ⌊q⌋ := Rat.floor_def.symm

/-- Python's `int()` applied to a float: truncation toward zero. -/
def pyInt (q : ℚ) : ℤ := if q < 0 then -ratFloor (-q) else ratFloor q

/-- Python 2's `round()` (half away from zero), composed with `int()`. -/
def pyRound (q : ℚ) : ℤ :=
  if q < 0 then -ratFloor (-q + 1/2) else ratFloor (q + 1/2)

/-- The viewer state touched by the geometry methods of `PiewApp`:
`zoom`, the pan position `pos_x`/`pos_y` (image pixel displayed at the
window's center), the window size `w.get_size()` and the image size
`pb.get_width()`/`pb.get_height()`. -/
structure PState where
  zoom : ℚ
  pos_x : ℚ
  pos_y : ℚ
  w_sx : ℕ
  w_sy : ℕ
  img_sx : ℕ
  img_sy : ℕ
deriving DecidableEq, Repr

/-- One axis of the clamp in `PiewApp.move`: `dst = float(w)/zoom`;
`if img <= dst: x = img/2` (Python 2 floor division on ints),
`elif x < dst/2: x = dst/2`, `else: x = min(x, img - dst/2 - 1)`. -/
def moveClampAxis (w img : ℕ) (zoom cand : ℚ) : ℚ :=
  let dst : ℚ := (w : ℚ) / zoom
  if (img : ℚ) ≤ dst then ((img / 2 : ℕ) : ℚ)
  else if cand < dst / 2 then dst / 2
  else min cand ((img : ℚ) - dst / 2 - 1)

/-- `PiewApp.move(pos, rel)`: candidate center is `img/2` when `pos` is
`None` (Python 2 floor division), `pos + (pos_x, pos_y)` when relative,
else `pos`; both axes are then clamped by `moveClampAxis`. -/
def move (s : PState) (pos : Option (ℚ × ℚ)) (rel : Bool) : PState :=
  let cand : ℚ × ℚ :=
    match pos with
    | none => ((((s.img_sx / 2 : ℕ)) : ℚ), (((s.img_sy / 2 : ℕ)) : ℚ))
    | some p => if rel then (p.1 + s.pos_x, p.2 + s.pos_y) else p
  { s with
    pos_x := moveClampAxis s.w_sx s.img_sx s.zoom cand.1
    pos_y := moveClampAxis s.w_sy s.img_sy s.zoom cand.2 }

/-- The error signaled by `set_zoom`'s range assertion. -/
inductive ZoomError
  | invalidZoom
deriving DecidableEq, Repr

/-- `PiewApp.set_zoom(z, center, rel)`.  The effective request is
`z + zoom` when relative; the assertion `0.001 < z < 1000` rejects the
request (state unchanged, `invalidZoom` signaled) before anything is
assigned.  On success the pan is recomputed with
`zk = 1/oldZoom - 1/newZoom` around the pivot offset from the window's
center (`center[i] - w_s/2`, Python 2 floor division on the window size)
and then clamped via `move` with absolute coordinates. -/
def set_zoom (s : PState) (z : ℚ) (center : Option (ℚ × ℚ)) (rel : Bool) :
    PState × Option ZoomError :=
  let z' : ℚ := if rel then z + s.zoom else z
  if 0.001 < z' ∧ z' < 1000 then
    let c : ℚ × ℚ :=
      match center with
      | none => (0, 0)
      | some p => (p.1 - ((s.w_sx / 2 : ℕ) : ℚ), p.2 - ((s.w_sy / 2 : ℕ) : ℚ))
    let zk : ℚ := 1 / s.zoom - 1 / z'
    let px : ℚ := s.pos_x + c.1 * zk
    let py : ℚ := s.pos_y + c.2 * zk
    (move { s with zoom := z' } (some (px, py)) false, none)
  else
    (s, some ZoomError.invalidZoom)

/-- The `zoom_steps` class constant: Python ranges
`range(15,50,7) + range(50,100,10) + range(100,200,25) + range(200,600,100)
 + range(600,1000,200) + range(1000,2000,500) + range(2000,5000,1000)`,
each divided by `100.0`. -/
def zoom_steps : List ℚ :=
  ((List.range' 15 5 7) ++ (List.range' 50 5 10) ++ (List.range' 100 4 25) ++
   (List.range' 200 4 100) ++ (List.range' 600 2 200) ++
   (List.range' 1000 2 500) ++ (List.range' 2000 3 1000)).map
    (fun i => (i : ℚ) / 100)

/-- `PiewApp.zoom_in(center)`: the first table step strictly greater than
the current zoom is applied through `set_zoom`; no step means no-op. -/
def zoom_in (s : PState) (center : Option (ℚ × ℚ)) : PState :=
  match zoom_steps.find? (fun z => decide (s.zoom < z)) with
  | some z => (set_zoom s z center false).1
  | none => s

/-- `PiewApp.zoom_out(center)`: the table is scanned in reverse and the
first step strictly less than the current zoom is applied. -/
def zoom_out (s : PState) (center : Option (ℚ × ℚ)) : PState :=
  match zoom_steps.reverse.find? (fun z => decide (z < s.zoom)) with
  | some z => (set_zoom s z center false).1
  | none => s

/-- `PiewApp.zoom_adjust()`: `z = min(1, float(w_sx)/img_sx, float(w_sy)/img_sy)`
passed to `set_zoom`. -/
def zoom_adjust (s : PState) : PState × Option ZoomError :=
  set_zoom s (min 1 (min ((s.w_sx : ℚ) / s.img_sx) ((s.w_sy : ℚ) / s.img_sy)))
    none false

/-- `PiewApp.is_adjusted()`:
`w_sx >= int(img_sx*zoom) and w_sy >= int(img_sy*zoom)` where `int()`
truncates toward zero. -/
def is_adjusted (s : PState) : Bool :=
  (s.w_sx : ℤ) ≥ pyInt ((s.img_sx : ℚ) * s.zoom) ∧
  (s.w_sy : ℤ) ≥ pyInt ((s.img_sy : ℚ) * s.zoom)

/-- `PiewApp.get_cursor_pixel()`:
`x = int(round(float(mouse_x - w_sx/2) / zoom + pos_x))` (and same for y;
`w_sx/2` is Python 2 floor division on ints), returned only when
`0 <= x < img_sx and 0 <= y < img_sy`, else `None`. -/
def get_cursor_pixel (s : PState) (mouse_x mouse_y : ℚ) : Option (ℤ × ℤ) :=
  let x : ℤ := pyRound ((mouse_x - ((s.w_sx / 2 : ℕ) : ℚ)) / s.zoom + s.pos_x)
  let y : ℤ := pyRound ((mouse_y - ((s.w_sy / 2 : ℕ) : ℚ)) / s.zoom + s.pos_y)
  if 0 ≤ x ∧ x < s.img_sx ∧ 0 ≤ y ∧ y < s.img_sy then some (x, y) else none

/-- The `cur_file` attribute: `None` (no file), `False` (invalid file) or a
filename. -/
inductive CurFile
  | nofile
  | invalid
  | file (f : String)
deriving DecidableEq, Repr

/-- `PiewApp.change_file(n, rel)` restricted to the file selection it
computes (`f`): with an empty list `f = None`; otherwise, when relative,
`self.files.index(self.cur_file)` is added to `n` (a `ValueError` — current
file `None`, `False` or absent — falls back to `files[0]`), and the result
is `files[n % len(files)]` with Python's nonnegative modulo. -/
def change_file (files : List String) (cur : CurFile) (n : ℤ) (rel : Bool) :
    Option String :=
  if files.length = 0 then none
  else if rel then
    match cur with
    | CurFile.file c =>
      match files.indexOf? c with
      | some i =>
        some (files.getD (((n + (i : ℤ)) % (files.length : ℤ)).toNat) "")
      | none => some (files.getD 0 "")
    | _ => some (files.getD 0 "")
  else
    some (files.getD ((n % (files.length : ℤ)).toNat) "")

/-- Abstract filesystem collaborator used by `set_filelist`:
`os.path.isfile`, `os.path.isdir`, `os.listdir`, `os.path.normpath`. -/
structure FS where
  isFile : String → Bool
  isDir : String → Bool
  listdir : String → List String
  normpath : String → String

/-- `os.path.join(f, ff)` for a directory path and a bare child name. -/
def pathJoin (f ff : String) : String := f ++ "/" ++ ff

/-- `f.split('.')[-1].lower()`: the (lowercased) part of the path after the
last dot — the whole path when it has no dot.  Modelled over the string's
character list: split on `.`, last component, per-character lowercase. -/
def pyExt (f : String) : String :=
  String.mk (((f.data.splitOn '.').getLastD f.data).map Char.toLower)

/-- The direct file children contributed by a directory source `f`
(already normalized) in `set_filelist`: `for ff in sorted(os.listdir(f))`,
prefixed with the directory (`os.path.join`) unless `f == '.'`, and kept
only when `os.path.isfile(ff)`. -/
def dirChildren (fs : FS) (f : String) : List String :=
  ((fs.listdir f).mergeSort (fun a b => decide (a ≤ b))).filterMap
    (fun ff =>
      let ff := if f = "." then ff else pathJoin f ff
      if fs.isFile ff then some ff else none)

/-- A small sample filesystem used to exercise `set_filelist` on concrete
input: one plain file `b.png` and one directory `d` holding a file
`a.png` and a subdirectory `sub`. -/
def sampleFS : FS where
  isFile := fun p => decide (p = "b.png" ∨ p = "d/a.png")
  isDir := fun p => decide (p = "d")
  listdir := fun p => if p = "d" then ["a.png", "sub"] else []
  normpath := fun p => p

/-- The loop of `set_filelist` collecting candidate paths: each source is
normalized; it contributes itself when it is a file and its direct file
children when it is a directory.  (The Python `set` that removes doublets
is modelled below by `List.toFinset`.) -/
def collectFiles (fs : FS) : List String → List String
  | [] => []
  | f :: rest =>
    let f := fs.normpath f
    (if fs.isFile f then [f] else []) ++
      (if fs.isDir f then dirChildren fs f else []) ++ collectFiles fs rest

/-- `PiewApp.set_filelist(files)`: collect candidates into a set, keep those
whose extension (`f.split('.')[-1].lower()`) is in the allow-list `exts`
(`file_exts` in the source), and return them sorted (string comparison). -/
def set_filelist (fs : FS) (exts : List String) (sources : List String) :
    List String :=
  Finset.sort (· ≤ ·)
    (((collectFiles fs sources).toFinset).filter (fun f => pyExt f ∈ exts))

/-! ### Animation -/

/-- Reduce an absolute display time to a position inside one loop of an
animation of total duration `T` (the looping behaviour of the external
`gtk.gdk.PixbufAnimationIter`): `t - T*⌊t/T⌋ ∈ [0, T)` for `T > 0`. -/
def reduceT (T t : ℚ) : ℚ := t - T * ratFloor (t / T)

/-- Index of the frame containing position `r` of one loop: first frame
whose duration interval contains `r`. -/
def frameIdx : List ℚ → ℚ → ℕ
  | [], _ => 0
  | d :: rest, r => if r < d then 0 else frameIdx rest (r - d) + 1

/-- Modelled from the spec: the frame timeline contract of the external
animation iterator — the frame displayed at absolute time `tms`
(milliseconds) for the looping timeline `durs` (frame durations in ms). -/
def frameAt (durs : List ℚ) (tms : ℚ) : ℕ :=
  frameIdx durs (reduceT durs.sum tms)

/-- The `while True` loop of `AnimWrapperGTK.advance`, with explicit fuel:
`self._t += self._it.get_delay_time() / 1000.` (the delay of the current —
unchanged — frame `i`, in ms, added to the display time `t` in seconds),
then `self._it.advance(self._t)`; the loop exits only when the frame at the
new time differs from `i`. -/
def advanceLoop (durs : List ℚ) (i : ℕ) : ℕ → ℚ → Option (ℚ × ℕ)
  | 0, _ => none
  | n + 1, t =>
    let t' := t + durs.getD i 0 / 1000
    let j := frameAt durs (1000 * t')
    if j ≠ i then some (t', j) else advanceLoop durs i n t'

/-- The animation state of `AnimWrapperPIL`: `total` frames in the PIL
image, `converted` frames already turned into pixbufs (`len(self._frames)`),
the current index `_i`, and whether `self._im` is still held. -/
structure PILAnim where
  total : ℕ
  converted : ℕ
  i : ℕ
  imLoaded : Bool
deriving DecidableEq, Repr

/-- `AnimWrapperPIL.advance` for an animated image: once the PIL image is
released, `_i = (_i + 1) % len(_frames)`; while converting,
`_convert_next` increments `_i` and seeks (appending one converted frame),
and on `EOFError` releases the image and resets `_i = 0`. -/
def pilAdvance (s : PILAnim) : PILAnim :=
  if !s.imLoaded then { s with i := (s.i + 1) % s.converted }
  else if s.i + 1 < s.total then
    { s with i := s.i + 1, converted := s.converted + 1 }
  else
    { s with i := 0, imLoaded := false }

/-- The GTK animation wrapper state: frame durations (ms), display time
`_t` (seconds) and the current frame index of the iterator. -/
structure GtkAnim where
  durs : List ℚ
  t : ℚ
  i : ℕ
deriving DecidableEq, Repr

/-- `AnimWrapperGTK.advance` run with the given fuel; when the loop exits
within the fuel the wrapper holds the new time and frame. -/
def gtkAdvance (a : GtkAnim) (fuel : ℕ) : GtkAnim :=
  match advanceLoop a.durs a.i fuel a.t with
  | some (t', j) => { a with t := t', i := j }
  | none => a

/-- The animation wrapper as seen by `PiewApp`: `is_animated()` plus the
underlying iterator state. -/
structure AniWrapper where
  animated : Bool
  gtk : GtkAnim
deriving DecidableEq, Repr

/-- The `PiewApp` fields touched by the animation methods: the optional
wrapper `ani`, the pending-timer handle `_ani_task`, the displayed pixbuf
`pb` (abstracted to a frame identifier) and a counter producing fresh
timer ids, modelling `gobject.timeout_add`. -/
structure AniApp where
  ani : Option AniWrapper
  task : Option ℕ
  pb : ℕ
  nextTask : ℕ
deriving DecidableEq, Repr

/-- `PiewApp.ani_is_playing()`. -/
def ani_is_playing (s : AniApp) : Bool :=
  match s.ani with
  | none => false
  | some a => a.animated && s.task.isSome

/-- `PiewApp.ani_next_frame()`: silently ignores static images; otherwise
advances the wrapper and refreshes `pb` from the new current frame. -/
def ani_next_frame (s : AniApp) (fuel : ℕ) : AniApp :=
  match s.ani with
  | none => s
  | some a =>
    if !a.animated then s
    else
      let a' := { a with gtk := gtkAdvance a.gtk fuel }
      { s with ani := some a', pb := a'.gtk.i }

/-- `PiewApp.ani_update()`: when a task was pending the frame is advanced,
then the next update is scheduled (a fresh timer handle). -/
def ani_update (s : AniApp) (fuel : ℕ) : AniApp :=
  match s.ani with
  | none => s
  | some _ =>
    let s := if s.task.isSome then ani_next_frame s fuel else s
    { s with task := some s.nextTask, nextTask := s.nextTask + 1 }

/-- `PiewApp.ani_set_state(state)`: `None` toggles, `True`/`False` set the
play state; static images (or no image) are silently ignored; pausing
removes the pending timer, playing schedules one via `ani_update`. -/
def ani_set_state (s : AniApp) (state : Option Bool) (fuel : ℕ) : AniApp :=
  match s.ani with
  | none => s
  | some a =>
    if !a.animated then s
    else
      let cur := ani_is_playing s
      -- Python `state == cur_state`: `None == b` is `False` for booleans
      let eq := match state with
        | none => false
        | some b => b = cur
      if eq then s
      else if cur then { s with task := none }
      else ani_update s fuel

/-- The zoom range enforced by `set_zoom`'s assertion. -/
def zoomInv (z : ℚ) : Prop := 0.001 < z ∧ z < 1000

end Piew

namespace Piew

/-! ### Helper lemmas -/

theorem move_zoom (s : PState) (pos : Option (ℚ × ℚ)) (rel : Bool) :
    (move s pos rel).zoom = s.zoom := by
  simp [move]

theorem set_zoom_fst_zoom (s : PState) (z : ℚ) (c : Option (ℚ × ℚ))
    (h : 0.001 < z ∧ z < 1000) :
    (set_zoom s z c false).1.zoom = z := by
  simp only [set_zoom, Bool.false_eq_true, if_false]
  rw [if_pos h]
  simp [move]

/-! ### Claim theorems -/

/-- C2: `set_zoom` accepts a request exactly when the effective zoom lies
in the open interval `(0.001, 1000)`; otherwise it signals `invalidZoom`
and returns the state unchanged. -/
theorem set_zoom_accepts_iff (s : PState) (z : ℚ) (c : Option (ℚ × ℚ))
    (rel : Bool) :
    ((set_zoom s z c rel).2 = none ↔
      (0.001 < (if rel then z + s.zoom else z) ∧
        (if rel then z + s.zoom else z) < 1000)) ∧
    (¬(0.001 < (if rel then z + s.zoom else z) ∧
        (if rel then z + s.zoom else z) < 1000) →
      set_zoom s z c rel = (s, some ZoomError.invalidZoom)) := by
  by_cases h : 0.001 < (if rel then z + s.zoom else z) ∧
      (if rel then z + s.zoom else z) < 1000
  · refine ⟨?_, fun hc => absurd h hc⟩
    simp [set_zoom, h]
  · refine ⟨?_, fun _ => ?_⟩ <;> simp [set_zoom, h]

/-- C2 witness: a request of `2000` is rejected with the state unchanged,
a request of `2` from a relative `+1` on zoom `1` is accepted. -/
theorem set_zoom_accepts_iff_witness :
    set_zoom ⟨1, 0, 0, 800, 500, 1600, 1000⟩ 2000 none false
      = (⟨1, 0, 0, 800, 500, 1600, 1000⟩, some ZoomError.invalidZoom) ∧
    (set_zoom ⟨1, 0, 0, 800, 500, 1600, 1000⟩ 1 none true).2 = none := by
  constructor
  · exact (set_zoom_accepts_iff ⟨1, 0, 0, 800, 500, 1600, 1000⟩ 2000 none
      false).2 (by norm_num)
  · exact (set_zoom_accepts_iff ⟨1, 0, 0, 800, 500, 1600, 1000⟩ 1 none
      true).1.mpr (by norm_num)

/-- C7 counterexample: with window 800×500, image 1601×999 and zoom 1/2,
`is_adjusted` is true although `windowW >= imageW*zoom` fails
(`int(1601*0.5) = int(800.5) = 800`, so the truncation makes the
difference the claim's formula ignores). -/
theorem is_adjusted_truncation_cex :
    is_adjusted ⟨1/2, 0, 0, 800, 500, 1601, 999⟩ = true ∧
    ¬((800 : ℚ) ≥ (1601 : ℚ) * (1/2)) := by
  constructor
  · simp only [is_adjusted, pyInt, ratFloor_eq_floor]
    norm_num
  · norm_num

/-- C7 (amended): `is_adjusted` is true iff the window dominates the
*truncated* scaled image size, i.e. iff `imageW*zoom < windowW + 1` and
`imageH*zoom < windowH + 1`. -/
theorem is_adjusted_iff (s : PState) (hz : 0 < s.zoom) :
    (is_adjusted s = true ↔
      ((s.img_sx : ℚ) * s.zoom < (s.w_sx : ℚ) + 1 ∧
       (s.img_sy : ℚ) * s.zoom < (s.w_sy : ℚ) + 1)) := by
  have key : ∀ (x : ℚ) (w : ℕ), (⌊x⌋ ≤ (w : ℤ)) ↔ x < (w : ℚ) + 1 := by
    intro x w
    rw [← Int.lt_add_one_iff, Int.floor_lt]
    push_cast
    rfl
  have hx : ¬((s.img_sx : ℚ) * s.zoom < 0) := by
    rw [not_lt]
    positivity
  have hy : ¬((s.img_sy : ℚ) * s.zoom < 0) := by
    rw [not_lt]
    positivity
  simp only [is_adjusted, pyInt, if_neg hx, if_neg hy, ratFloor_eq_floor,
    ge_iff_le, decide_eq_true_eq]
  rw [key, key]

/-- C7 witness: a 1600×1000 image at zoom 1 in a 1600×1000 window is
adjusted. -/
theorem is_adjusted_iff_witness :
    is_adjusted ⟨1, 0, 0, 1600, 1000, 1600, 1000⟩ = true := by
  rw [is_adjusted_iff ⟨1, 0, 0, 1600, 1000, 1600, 1000⟩ (by norm_num)]
  norm_num

theorem set_zoom_preserves_zoomInv (s : PState) (z : ℚ) (c : Option (ℚ × ℚ))
    (rel : Bool) (h : zoomInv s.zoom) : zoomInv (set_zoom s z c rel).1.zoom := by
  simp only [set_zoom]
  by_cases hc : 0.001 < (if rel then z + s.zoom else z) ∧
      (if rel then z + s.zoom else z) < 1000
  · rw [if_pos hc]
    simpa [move, zoomInv] using hc
  · rw [if_neg hc]
    exact h

/-- C10: the zoom range invariant `0.001 < zoom < 1000` holds initially
(`zoom = 1`) and is preserved by every operation that can assign the zoom
(`set_zoom` — which funnels `zoom_in`, `zoom_out` and `zoom_adjust` — and
`move`); a rejected request leaves the previous in-range value in place. -/
theorem zoom_invariant_preserved :
    zoomInv 1 ∧
    (∀ (s : PState) (z : ℚ) (c : Option (ℚ × ℚ)) (rel : Bool),
      zoomInv s.zoom → zoomInv (set_zoom s z c rel).1.zoom) ∧
    (∀ (s : PState) (c : Option (ℚ × ℚ)),
      zoomInv s.zoom → zoomInv (zoom_in s c).zoom) ∧
    (∀ (s : PState) (c : Option (ℚ × ℚ)),
      zoomInv s.zoom → zoomInv (zoom_out s c).zoom) ∧
    (∀ s : PState, zoomInv s.zoom → zoomInv (zoom_adjust s).1.zoom) ∧
    (∀ (s : PState) (pos : Option (ℚ × ℚ)) (rel : Bool),
      zoomInv s.zoom → zoomInv (move s pos rel).zoom) := by
  refine ⟨by norm_num [zoomInv], set_zoom_preserves_zoomInv, ?_, ?_, ?_, ?_⟩
  · intro s c h
    unfold zoom_in
    split
    · exact set_zoom_preserves_zoomInv _ _ _ _ h
    · exact h
  · intro s c h
    unfold zoom_out
    split
    · exact set_zoom_preserves_zoomInv _ _ _ _ h
    · exact h
  · intro s h
    exact set_zoom_preserves_zoomInv _ _ _ _ h
  · intro s pos rel h
    simpa [move] using h

/-- C10 witness: from the initial state (zoom 1), a rejected request of
2000 leaves the zoom in range. -/
theorem zoom_invariant_preserved_witness :
    zoomInv (set_zoom ⟨1, 0, 0, 800, 500, 1600, 1000⟩ 2000 none false).1.zoom :=
  zoom_invariant_preserved.2.1 ⟨1, 0, 0, 800, 500, 1600, 1000⟩ 2000 none false
    zoom_invariant_preserved.1

/-- C4: `change_file` yields no file on an empty list; on a non-empty list
an absolute move selects index `n mod count` and a relative move from the
current file at index `i` selects index `(i + n) mod count`, with Python's
mathematical (sign-of-divisor) modulo, so negative `n` wraps around. -/
theorem change_file_spec (files : List String) (cur : CurFile) (c : String)
    (i : ℕ) (n : ℤ) :
    (files = [] → ∀ rel, change_file files cur n rel = none) ∧
    (files ≠ [] →
      change_file files cur n false
        = some (files.getD ((n % (files.length : ℤ)).toNat) "")) ∧
    (files ≠ [] → files.indexOf? c = some i →
      change_file files (CurFile.file c) n true
        = some (files.getD ((((i : ℤ) + n) % (files.length : ℤ)).toNat) "")) := by
  refine ⟨?_, ?_, ?_⟩
  · intro h rel
    simp [change_file, h]
  · intro h
    simp [change_file, List.length_eq_zero, h]
  · intro h hidx
    simp [change_file, List.length_eq_zero, h, hidx, Int.add_comm]

/-- C4 witness: on the 3-item list at index 0, `move(-1, relative)` yields
the last item and `move(4, relative)` yields index 1. -/
theorem change_file_spec_witness :
    change_file ["a", "b", "c"] (CurFile.file "a") (-1) true = some "c" ∧
    change_file ["a", "b", "c"] (CurFile.file "a") 4 true = some "b" := by
  constructor
  · have h := (change_file_spec ["a", "b", "c"] (CurFile.file "a") "a" 0
      (-1)).2.2 (by simp) (by simp [List.indexOf?])
    simpa using h
  · have h := (change_file_spec ["a", "b", "c"] (CurFile.file "a") "a" 0
      4).2.2 (by simp) (by simp [List.indexOf?])
    simpa using h

/-- C9: every animation operation invoked while no image is loaded or the
current image is static is a silent no-op: the state is returned
unchanged. -/
theorem ani_static_noop (s : AniApp) (st : Option Bool) (fuel : ℕ)
    (h : s.ani = none ∨ ∃ a, s.ani = some a ∧ a.animated = false) :
    ani_set_state s st fuel = s ∧ ani_next_frame s fuel = s := by
  rcases h with h | ⟨a, ha, hanim⟩
  · simp [ani_set_state, ani_next_frame, h]
  · simp [ani_set_state, ani_next_frame, ha, hanim]

/-- C9 witness: toggling play and stepping a frame on a static image leave
the state untouched. -/
theorem ani_static_noop_witness :
    ani_set_state ⟨some ⟨false, ⟨[], 1, 0⟩⟩, none, 0, 0⟩ none 5
        = ⟨some ⟨false, ⟨[], 1, 0⟩⟩, none, 0, 0⟩ ∧
    ani_next_frame ⟨some ⟨false, ⟨[], 1, 0⟩⟩, none, 0, 0⟩ 5
        = ⟨some ⟨false, ⟨[], 1, 0⟩⟩, none, 0, 0⟩ :=
  ani_static_noop _ none 5 (Or.inr ⟨_, rfl, rfl⟩)

/-- C8: `get_cursor_pixel` returns the rounded inverse viewport transform
of the mouse position exactly when it lands inside the image bounds, and
`none` exactly when it does not. -/
theorem get_cursor_pixel_spec (s : PState) (mx my : ℚ) (p : ℤ × ℤ) :
    (get_cursor_pixel s mx my = some p ↔
      (p.1 = pyRound ((mx - ((s.w_sx / 2 : ℕ) : ℚ)) / s.zoom + s.pos_x) ∧
       p.2 = pyRound ((my - ((s.w_sy / 2 : ℕ) : ℚ)) / s.zoom + s.pos_y) ∧
       0 ≤ p.1 ∧ p.1 < (s.img_sx : ℤ) ∧ 0 ≤ p.2 ∧ p.2 < (s.img_sy : ℤ))) ∧
    (get_cursor_pixel s mx my = none ↔
      ¬(0 ≤ pyRound ((mx - ((s.w_sx / 2 : ℕ) : ℚ)) / s.zoom + s.pos_x) ∧
        pyRound ((mx - ((s.w_sx / 2 : ℕ) : ℚ)) / s.zoom + s.pos_x)
          < (s.img_sx : ℤ) ∧
        0 ≤ pyRound ((my - ((s.w_sy / 2 : ℕ) : ℚ)) / s.zoom + s.pos_y) ∧
        pyRound ((my - ((s.w_sy / 2 : ℕ) : ℚ)) / s.zoom + s.pos_y)
          < (s.img_sy : ℤ))) := by
  obtain ⟨p1, p2⟩ := p
  simp only [get_cursor_pixel]
  split
  · next hin =>
    constructor
    · simp only [Option.some.injEq, Prod.mk.injEq]
      constructor
      · rintro ⟨rfl, rfl⟩
        exact ⟨rfl, rfl, hin.1, hin.2.1, hin.2.2.1, hin.2.2.2⟩
      · rintro ⟨h1, h2, _⟩
        exact ⟨h1.symm, h2.symm⟩
    · simp [hin]
  · next hout =>
    constructor
    · constructor
      · intro h
        exact absurd h (by simp)
      · rintro ⟨rfl, rfl, hb1, hb2, hb3, hb4⟩
        exact absurd ⟨hb1, hb2, hb3, hb4⟩ hout
    · exact ⟨fun _ => hout, fun _ => rfl⟩

/-- C8 witness: at the window center of the 800×500 window over a
1600×1000 image at zoom 1 with the pan at the origin, the cursor pixel is
`(0, 0)`. -/
theorem get_cursor_pixel_spec_witness :
    get_cursor_pixel ⟨1, 0, 0, 800, 500, 1600, 1000⟩ 400 250 = some (0, 0) := by
  refine (get_cursor_pixel_spec ⟨1, 0, 0, 800, 500, 1600, 1000⟩ 400 250
    (0, 0)).1.mpr ?_
  have h1 : pyRound (((400 : ℚ) - ((800 / 2 : ℕ) : ℚ)) / 1 + 0) = 0 := by
    simp only [pyRound, ratFloor_eq_floor]
    norm_num
  have h2 : pyRound (((250 : ℚ) - ((500 / 2 : ℕ) : ℚ)) / 1 + 0) = 0 := by
    simp only [pyRound, ratFloor_eq_floor]
    norm_num
  exact ⟨h1.symm, h2.symm, le_refl 0, by norm_num, le_refl 0, by norm_num⟩

/-- C1 counterexample: window 800, zoom 3/20, image 5334 — the image does
not fit (`5334 > destSize = 16000/3`) and the candidate 3000 is not below
`destSize/2 = 8000/3`, yet the clamped center `7999/3` lies strictly below
`destSize/2`, outside the claimed interval
`[destSize/2, imageSize - destSize/2 - 1]` (which is empty here). -/
theorem move_clamp_interval_cex :
    moveClampAxis 800 5334 (3/20) 3000 = 7999/3 ∧
    ¬((5334 : ℚ) ≤ (800 : ℚ) / (3/20)) ∧
    ¬((3000 : ℚ) < (800 : ℚ) / (3/20) / 2) ∧
    moveClampAxis 800 5334 (3/20) 3000 < (800 : ℚ) / (3/20) / 2 := by
  norm_num [moveClampAxis, min_def]

/-- C1 (amended): per axis with `destSize = windowSize/zoom`: if
`imageSize <= destSize` the center is `imageSize/2` (Python 2 integer
halving); otherwise a candidate below `destSize/2` clamps to `destSize/2`
and any other candidate maps to
`min(candidate, imageSize - destSize/2 - 1)`; whenever moreover
`destSize + 1 <= imageSize` the result lies in
`[destSize/2, imageSize - destSize/2 - 1]`.  Concretely, for window
800×500, image 1600×1000, zoom 1, a move toward `(2000, 2000)` yields
center `(1199, 749)`. -/
theorem move_clamp_spec (w img : ℕ) (zoom cand : ℚ) :
    ((img : ℚ) ≤ (w : ℚ) / zoom →
      moveClampAxis w img zoom cand = ((img / 2 : ℕ) : ℚ)) ∧
    (¬((img : ℚ) ≤ (w : ℚ) / zoom) → cand < (w : ℚ) / zoom / 2 →
      moveClampAxis w img zoom cand = (w : ℚ) / zoom / 2) ∧
    (¬((img : ℚ) ≤ (w : ℚ) / zoom) → ¬(cand < (w : ℚ) / zoom / 2) →
      moveClampAxis w img zoom cand
        = min cand ((img : ℚ) - (w : ℚ) / zoom / 2 - 1)) ∧
    (¬((img : ℚ) ≤ (w : ℚ) / zoom) → (w : ℚ) / zoom + 1 ≤ (img : ℚ) →
      (w : ℚ) / zoom / 2 ≤ moveClampAxis w img zoom cand ∧
      moveClampAxis w img zoom cand ≤ (img : ℚ) - (w : ℚ) / zoom / 2 - 1) ∧
    move ⟨1, 0, 0, 800, 500, 1600, 1000⟩ (some (2000, 2000)) true
      = ⟨1, 1199, 749, 800, 500, 1600, 1000⟩ := by
  refine ⟨fun h => by simp [moveClampAxis, h],
    fun h1 h2 => by simp [moveClampAxis, h1, h2],
    fun h1 h2 => by simp [moveClampAxis, h1, h2],
    fun h1 h2 => ?_, ?_⟩
  · by_cases hc : cand < (w : ℚ) / zoom / 2
    · have he : moveClampAxis w img zoom cand = (w : ℚ) / zoom / 2 := by
        simp [moveClampAxis, h1, hc]
      rw [he]
      exact ⟨le_refl _, by linarith⟩
    · have he : moveClampAxis w img zoom cand
          = min cand ((img : ℚ) - (w : ℚ) / zoom / 2 - 1) := by
        simp [moveClampAxis, h1, hc]
      rw [he]
      exact ⟨le_min (le_of_not_lt hc) (by linarith), min_le_right _ _⟩
  · simp only [move]
    norm_num [moveClampAxis, min_def]

/-- C1 witness: window 800, image 1600, zoom 1 (so destSize 800, which
exceeds the window by at least 1): the clamp keeps candidate 2000 within
`[400, 1199]`. -/
theorem move_clamp_spec_witness :
    (800 : ℚ) / 1 / 2 ≤ moveClampAxis 800 1600 1 2000 ∧
    moveClampAxis 800 1600 1 2000 ≤ (1600 : ℚ) - (800 : ℚ) / 1 / 2 - 1 := by
  have h := (move_clamp_spec 800 1600 1 2000).2.2.2.1 (by norm_num)
    (by norm_num)
  simpa using h

set_option maxHeartbeats 1600000 in
theorem zoom_steps_eq :
    zoom_steps = [3/20, 11/50, 29/100, 9/25, 43/100, 1/2, 3/5, 7/10, 4/5,
      9/10, 1, 5/4, 3/2, 7/4, 2, 3, 4, 5, 6, 8, 10, 15, 20, 30, 40] := by
  have h : (List.range' 15 5 7) ++ (List.range' 50 5 10) ++
      (List.range' 100 4 25) ++ (List.range' 200 4 100) ++
      (List.range' 600 2 200) ++ (List.range' 1000 2 500) ++
      (List.range' 2000 3 1000)
      = [15, 22, 29, 36, 43, 50, 60, 70, 80, 90, 100, 125, 150, 175, 200,
         300, 400, 500, 600, 800, 1000, 1500, 2000, 3000, 4000] := by rfl
  unfold zoom_steps
  rw [h]
  norm_num [List.map]

theorem zoom_steps_pairwise : zoom_steps.Pairwise (· < ·) := by
  rw [zoom_steps_eq, ← List.chain'_iff_pairwise]
  norm_num [List.chain'_cons]

theorem zoom_steps_range : ∀ z ∈ zoom_steps, 0.001 < z ∧ z < 1000 := by
  rw [zoom_steps_eq]
  intro z hz
  fin_cases hz <;> norm_num

theorem zoom_steps_min_le : ∀ z ∈ zoom_steps, 3/20 ≤ z := by
  rw [zoom_steps_eq]
  intro z hz
  fin_cases hz <;> norm_num

theorem zoom_steps_le_max : ∀ z ∈ zoom_steps, z ≤ 40 := by
  rw [zoom_steps_eq]
  intro z hz
  fin_cases hz <;> norm_num

/-- In a strictly ascending list, when `x` sits between positions `k` and
`k+1`, the first element strictly greater than `x` is the one at `k+1`. -/
theorem find_first_gt (l : List ℚ) (x : ℚ) (k : ℕ)
    (hs : l.Pairwise (· < ·)) (hk : k + 1 < l.length)
    (h1 : l.getD k 0 ≤ x) (h2 : x < l.getD (k + 1) 0) :
    l.find? (fun z => decide (x < z)) = some (l.getD (k + 1) 0) := by
  induction l generalizing k with
  | nil => simp at hk
  | cons a rest ih =>
    cases k with
    | zero =>
      rw [List.getD_cons_zero] at h1
      cases rest with
      | nil => simp at hk
      | cons b rest2 =>
        rw [List.getD_cons_succ, List.getD_cons_zero] at h2 ⊢
        rw [List.find?_cons_of_neg _ (by simp [not_lt.mpr h1]),
          List.find?_cons_of_pos _ (by simp [h2])]
    | succ k =>
      rw [List.getD_cons_succ] at h1 h2
      rw [List.getD_cons_succ]
      have hk' : k + 1 < rest.length := by
        simpa using Nat.lt_of_succ_lt_succ hk
      have hmem : rest.getD k 0 ∈ rest := by
        rw [List.getD_eq_getElem _ _ (Nat.lt_of_succ_lt hk')]
        exact List.getElem_mem _
      have ha : a < x :=
        lt_of_lt_of_le ((List.pairwise_cons.mp hs).1 _ hmem) h1
      rw [List.find?_cons_of_neg _ (by simp [not_lt.mpr (le_of_lt ha)])]
      exact ih k (List.pairwise_cons.mp hs).2 hk' h1 h2

/-- In a strictly descending list, when `x` sits between positions `k` and
`k+1`, the first element strictly less than `x` is the one at `k+1`. -/
theorem find_first_lt (l : List ℚ) (x : ℚ) (k : ℕ)
    (hs : l.Pairwise (· > ·)) (hk : k + 1 < l.length)
    (h1 : x ≤ l.getD k 0) (h2 : l.getD (k + 1) 0 < x) :
    l.find? (fun z => decide (z < x)) = some (l.getD (k + 1) 0) := by
  induction l generalizing k with
  | nil => simp at hk
  | cons a rest ih =>
    cases k with
    | zero =>
      rw [List.getD_cons_zero] at h1
      cases rest with
      | nil => simp at hk
      | cons b rest2 =>
        rw [List.getD_cons_succ, List.getD_cons_zero] at h2 ⊢
        rw [List.find?_cons_of_neg _ (by simp [not_lt.mpr h1]),
          List.find?_cons_of_pos _ (by simp [h2])]
    | succ k =>
      rw [List.getD_cons_succ] at h1 h2
      rw [List.getD_cons_succ]
      have hk' : k + 1 < rest.length := by
        simpa using Nat.lt_of_succ_lt_succ hk
      have hmem : rest.getD k 0 ∈ rest := by
        rw [List.getD_eq_getElem _ _ (Nat.lt_of_succ_lt hk')]
        exact List.getElem_mem _
      have ha : x < a :=
        lt_of_le_of_lt h1 ((List.pairwise_cons.mp hs).1 _ hmem)
      rw [List.find?_cons_of_neg _ (by simp [not_lt.mpr (le_of_lt ha)])]
      exact ih k (List.pairwise_cons.mp hs).2 hk' h1 h2

theorem getD_reverse (l : List ℚ) (i : ℕ) (hi : i < l.length) :
    l.reverse.getD i 0 = l.getD (l.length - 1 - i) 0 := by
  have hi' : i < l.reverse.length := by simpa using hi
  rw [List.getD_eq_getElem _ _ hi',
    List.getD_eq_getElem _ _ (by omega : l.length - 1 - i < l.length),
    List.getElem_reverse]

/-- `zoom_in` from a zoom between positions `k` (inclusive) and `k+1`
(exclusive) of the table lands exactly on the step at `k+1`. -/
theorem zoom_in_zoom (s : PState) (c : Option (ℚ × ℚ)) (k : ℕ)
    (hk : k + 1 < zoom_steps.length)
    (h1 : zoom_steps.getD k 0 ≤ s.zoom)
    (h2 : s.zoom < zoom_steps.getD (k + 1) 0) :
    (zoom_in s c).zoom = zoom_steps.getD (k + 1) 0 := by
  have hf := find_first_gt zoom_steps s.zoom k zoom_steps_pairwise hk h1 h2
  unfold zoom_in
  rw [hf]
  refine set_zoom_fst_zoom s _ c (zoom_steps_range _ ?_)
  rw [List.getD_eq_getElem _ _ hk]
  exact List.getElem_mem _

/-- `zoom_out` from a zoom between positions `k` (exclusive) and `k+1`
(inclusive) of the table lands exactly on the step at `k`. -/
theorem zoom_out_zoom (s : PState) (c : Option (ℚ × ℚ)) (k : ℕ)
    (hk : k + 1 < zoom_steps.length)
    (h1 : s.zoom ≤ zoom_steps.getD (k + 1) 0)
    (h2 : zoom_steps.getD k 0 < s.zoom) :
    (zoom_out s c).zoom = zoom_steps.getD k 0 := by
  have hd : zoom_steps.reverse.Pairwise (· > ·) :=
    List.pairwise_reverse.mpr zoom_steps_pairwise
  have hlen : zoom_steps.reverse.length = zoom_steps.length :=
    List.length_reverse _
  have hk2 : (zoom_steps.length - 2 - k) + 1 < zoom_steps.reverse.length := by
    omega
  have e1 : zoom_steps.reverse.getD (zoom_steps.length - 2 - k) 0
      = zoom_steps.getD (k + 1) 0 := by
    rw [getD_reverse _ _ (by omega)]
    congr 1
    omega
  have e2 : zoom_steps.reverse.getD ((zoom_steps.length - 2 - k) + 1) 0
      = zoom_steps.getD k 0 := by
    rw [getD_reverse _ _ (by omega)]
    congr 1
    omega
  have hf := find_first_lt zoom_steps.reverse s.zoom
    (zoom_steps.length - 2 - k) hd hk2 (by rw [e1]; exact h1)
    (by rw [e2]; exact h2)
  rw [e2] at hf
  unfold zoom_out
  rw [hf]
  refine set_zoom_fst_zoom s _ c (zoom_steps_range _ ?_)
  rw [List.getD_eq_getElem _ _ (by omega : k < zoom_steps.length)]
  exact List.getElem_mem _

theorem zoom_steps_adj (k : ℕ) (hk : k + 1 < zoom_steps.length) :
    zoom_steps.getD k 0 < zoom_steps.getD (k + 1) 0 := by
  rw [List.getD_eq_getElem _ _ (Nat.lt_of_succ_lt hk),
    List.getD_eq_getElem _ _ hk]
  exact List.pairwise_iff_getElem.mp zoom_steps_pairwise k (k + 1) _ _
    (Nat.lt_succ_self k)

/-- C6 counterexample: zoom 11/20 is strictly bracketed by the consecutive
table steps 1/2 (position 5) and 3/5 (position 6), yet zoom-in followed by
zoom-out lands on 1/2 — not back on the original 11/20. -/
theorem zoom_roundtrip_cex :
    zoom_steps.getD 5 0 = 1/2 ∧ zoom_steps.getD 6 0 = 3/5 ∧
    (1/2 : ℚ) < 11/20 ∧ (11/20 : ℚ) < 3/5 ∧
    (zoom_out (zoom_in ⟨11/20, 0, 0, 800, 500, 1600, 1000⟩ none) none).zoom
      = 1/2 ∧
    (1/2 : ℚ) ≠ 11/20 := by
  have e5 : zoom_steps.getD 5 0 = 1/2 := by
    rw [zoom_steps_eq]
    norm_num [List.getD]
  have e6 : zoom_steps.getD 6 0 = 3/5 := by
    rw [zoom_steps_eq]
    norm_num [List.getD]
  have hlen : zoom_steps.length = 25 := by
    rw [zoom_steps_eq]
    rfl
  have hin : (zoom_in ⟨11/20, 0, 0, 800, 500, 1600, 1000⟩ none).zoom
      = zoom_steps.getD 6 0 :=
    zoom_in_zoom _ none 5 (by rw [hlen]; omega) (by rw [e5]; norm_num)
      (by rw [e6]; norm_num)
  have hout : (zoom_out (zoom_in ⟨11/20, 0, 0, 800, 500, 1600, 1000⟩ none)
      none).zoom = zoom_steps.getD 5 0 :=
    zoom_out_zoom _ none 5 (by rw [hlen]; omega) (by rw [hin])
      (by rw [hin, e5, e6]; norm_num)
  refine ⟨e5, e6, by norm_num, by norm_num, ?_, by norm_num⟩
  rw [hout, e5]

theorem zoom_in_eq_of_find (s : PState) (c1 : Option (ℚ × ℚ)) (z : ℚ)
    (hf : zoom_steps.find? (fun w => decide (s.zoom < w)) = some z)
    (hz : 0.001 < z ∧ z < 1000) :
    (zoom_in s c1).zoom = z := by
  unfold zoom_in
  rw [hf]
  exact set_zoom_fst_zoom s z c1 hz

theorem zoom_in_eq_of_find_none (s : PState) (c1 : Option (ℚ × ℚ))
    (hf : zoom_steps.find? (fun w => decide (s.zoom < w)) = none) :
    zoom_in s c1 = s := by
  unfold zoom_in
  rw [hf]

theorem zoom_out_eq_of_find (s : PState) (c2 : Option (ℚ × ℚ)) (z : ℚ)
    (hf : zoom_steps.reverse.find? (fun w => decide (w < s.zoom)) = some z)
    (hz : 0.001 < z ∧ z < 1000) :
    (zoom_out s c2).zoom = z := by
  unfold zoom_out
  rw [hf]
  exact set_zoom_fst_zoom s z c2 hz

theorem zoom_out_eq_of_find_none (s : PState) (c2 : Option (ℚ × ℚ))
    (hf : zoom_steps.reverse.find? (fun w => decide (w < s.zoom)) = none) :
    zoom_out s c2 = s := by
  unfold zoom_out
  rw [hf]

theorem find_gt_below_min (x : ℚ) (h : x < 3/20) :
    zoom_steps.find? (fun z => decide (x < z)) = some (3/20) :=
  (congrArg (List.find? (fun z => decide (x < z))) zoom_steps_eq).trans
    (List.find?_cons_of_pos _ (by simp [h]))

theorem find_lt_below_min (x : ℚ) (h : x ≤ 3/20) :
    zoom_steps.reverse.find? (fun z => decide (z < x)) = none := by
  rw [List.find?_eq_none]
  intro y hy
  simp only [decide_eq_true_eq, not_lt]
  exact le_trans h (zoom_steps_min_le y (List.mem_reverse.mp hy))

theorem zoom_steps_reverse_eq :
    zoom_steps.reverse
      = 40 :: [30, 20, 15, 10, 8, 6, 5, 4, 3, 2, 7/4, 3/2, 5/4, 1, 9/10,
        4/5, 7/10, 3/5, 1/2, 43/100, 9/25, 29/100, 11/50, 3/20] := by
  rw [zoom_steps_eq]
  rfl

theorem find_gt_above_max (x : ℚ) (h : 40 < x) :
    zoom_steps.find? (fun z => decide (x < z)) = none := by
  rw [List.find?_eq_none]
  intro y hy
  simp only [decide_eq_true_eq, not_lt]
  exact le_trans (zoom_steps_le_max y hy) (le_of_lt h)

theorem find_lt_above_max (x : ℚ) (h : 40 < x) :
    zoom_steps.reverse.find? (fun z => decide (z < x)) = some 40 :=
  (congrArg (List.find? (fun z => decide (z < x))) zoom_steps_reverse_eq).trans
    (List.find?_cons_of_pos _ (by simp [h]))

theorem zoom_in_below_min (s : PState) (c1 : Option (ℚ × ℚ))
    (h : s.zoom < 3/20) : (zoom_in s c1).zoom = 3/20 :=
  zoom_in_eq_of_find s c1 (3/20) (find_gt_below_min s.zoom h) (by norm_num)

theorem roundtrip_below_min (s : PState) (c1 c2 : Option (ℚ × ℚ))
    (h : s.zoom < 3/20) :
    (zoom_out (zoom_in s c1) c2).zoom = 3/20 := by
  have hin : (zoom_in s c1).zoom = 3/20 := zoom_in_below_min s c1 h
  have hstay : zoom_out (zoom_in s c1) c2 = zoom_in s c1 :=
    zoom_out_eq_of_find_none (zoom_in s c1) c2
      (by rw [hin]; exact find_lt_below_min (3/20) le_rfl)
  exact (congrArg PState.zoom hstay).trans hin

theorem roundtrip_above_max (s : PState) (c1 c2 : Option (ℚ × ℚ))
    (h : 40 < s.zoom) :
    (zoom_out (zoom_in s c1) c2).zoom = 40 := by
  have hin : zoom_in s c1 = s :=
    zoom_in_eq_of_find_none s c1 (find_gt_above_max s.zoom h)
  exact zoom_out_eq_of_find (zoom_in s c1) c2 40
    (by rw [hin]; exact find_lt_above_max s.zoom h) (by norm_num)

theorem roundtrip_bracketed (s : PState) (c1 c2 : Option (ℚ × ℚ)) (k : ℕ)
    (hk : k + 1 < zoom_steps.length)
    (h1 : zoom_steps.getD k 0 < s.zoom)
    (h2 : s.zoom < zoom_steps.getD (k + 1) 0) :
    (zoom_out (zoom_in s c1) c2).zoom = zoom_steps.getD k 0 := by
  have hin : (zoom_in s c1).zoom = zoom_steps.getD (k + 1) 0 :=
    zoom_in_zoom s c1 k hk (le_of_lt h1) h2
  exact zoom_out_zoom _ c2 k hk (by rw [hin])
    (by rw [hin]; exact zoom_steps_adj k hk)

/-- C6 (amended): from a zoom strictly bracketed by consecutive table
steps, zoom-in-then-zoom-out yields the *lower* bracketing step — strictly
below the starting zoom, not equal to it; from a zoom below the smallest
step (3/20) the round trip yields 3/20, which exceeds the starting zoom;
from a zoom above the largest step (40) it yields 40, which is at most the
starting zoom. -/
theorem zoom_roundtrip_spec (s : PState) (c1 c2 : Option (ℚ × ℚ)) :
    (∀ k, k + 1 < zoom_steps.length →
      zoom_steps.getD k 0 < s.zoom → s.zoom < zoom_steps.getD (k + 1) 0 →
      (zoom_out (zoom_in s c1) c2).zoom = zoom_steps.getD k 0 ∧
      (zoom_out (zoom_in s c1) c2).zoom < s.zoom) ∧
    (s.zoom < 3/20 → (zoom_out (zoom_in s c1) c2).zoom = 3/20) ∧
    (40 < s.zoom → (zoom_out (zoom_in s c1) c2).zoom = 40 ∧
      (zoom_out (zoom_in s c1) c2).zoom ≤ s.zoom) := by
  refine ⟨fun k hk h1 h2 => ?_, roundtrip_below_min s c1 c2, fun h => ?_⟩
  · have hout := roundtrip_bracketed s c1 c2 k hk h1 h2
    exact ⟨hout, by rw [hout]; exact h1⟩
  · have hout := roundtrip_above_max s c1 c2 h
    exact ⟨hout, by rw [hout]; exact le_of_lt h⟩

/-- C6 witness: from zoom 1/10 (below the table minimum) the round trip
raises the zoom to the minimum step 3/20. -/
theorem zoom_roundtrip_spec_witness :
    (zoom_out (zoom_in ⟨1/10, 0, 0, 800, 500, 1600, 1000⟩ none) none).zoom
      = 3/20 :=
  (zoom_roundtrip_spec ⟨1/10, 0, 0, 800, 500, 1600, 1000⟩ none none).2.1
    (by norm_num)

theorem mem_dirChildren (fs : FS) (f x : String) :
    x ∈ dirChildren fs f ↔
      ∃ c ∈ fs.listdir f,
        x = (if f = "." then c else pathJoin f c) ∧ fs.isFile x = true := by
  unfold dirChildren
  simp only [List.mem_filterMap, List.mem_mergeSort]
  constructor
  · rintro ⟨c, hc, he⟩
    refine ⟨c, hc, ?_⟩
    by_cases hfile : fs.isFile (if f = "." then c else pathJoin f c) = true
    · rw [if_pos hfile] at he
      injection he with he
      subst he
      exact ⟨rfl, hfile⟩
    · rw [if_neg hfile] at he
      exact absurd he (by simp)
  · rintro ⟨c, hc, rfl, hfile⟩
    exact ⟨c, hc, by rw [if_pos hfile]⟩

theorem mem_ite_list (b : Bool) (x : String) (l : List String) :
    x ∈ (if b = true then l else []) ↔ (b = true ∧ x ∈ l) := by
  cases b <;> simp

theorem mem_collectFiles (fs : FS) (sources : List String) (x : String) :
    x ∈ collectFiles fs sources ↔
      ∃ src ∈ sources,
        (x = fs.normpath src ∧ fs.isFile x = true) ∨
        (fs.isDir (fs.normpath src) = true ∧
          x ∈ dirChildren fs (fs.normpath src)) := by
  induction sources with
  | nil => simp [collectFiles]
  | cons a rest ih =>
    simp only [collectFiles, List.mem_append, ih, mem_ite_list,
      List.mem_singleton, List.exists_mem_cons_iff]
    constructor
    · rintro ((⟨hfile, rfl⟩ | ⟨hdir, hmem⟩) | ⟨src, hsrc, hcase⟩)
      · exact Or.inl (Or.inl ⟨rfl, hfile⟩)
      · exact Or.inl (Or.inr ⟨hdir, hmem⟩)
      · exact Or.inr ⟨src, hsrc, hcase⟩
    · rintro ((⟨rfl, hfile⟩ | ⟨hdir, hmem⟩) | ⟨src, hsrc, hcase⟩)
      · exact Or.inl (Or.inl ⟨hfile, rfl⟩)
      · exact Or.inl (Or.inr ⟨hdir, hmem⟩)
      · exact Or.inr ⟨src, hsrc, hcase⟩

/-- C5: `set_filelist` returns a lexicographically sorted, duplicate-free
list containing exactly: the normalized sources that are files, plus the
direct file children of the sources that are directories (one level deep,
no recursion), restricted to paths whose lowercased extension (the part
after the last dot) belongs to the allow-list. -/
theorem set_filelist_spec (fs : FS) (exts sources : List String) :
    (set_filelist fs exts sources).Sorted (· ≤ ·) ∧
    (set_filelist fs exts sources).Nodup ∧
    (∀ x, x ∈ set_filelist fs exts sources ↔
      (pyExt x ∈ exts ∧
        ∃ src ∈ sources,
          (x = fs.normpath src ∧ fs.isFile x = true) ∨
          (fs.isDir (fs.normpath src) = true ∧
            ∃ c ∈ fs.listdir (fs.normpath src),
              x = (if fs.normpath src = "." then c
                else pathJoin (fs.normpath src) c) ∧
              fs.isFile x = true))) := by
  refine ⟨Finset.sort_sorted _ _, Finset.sort_nodup _ _, fun x => ?_⟩
  rw [set_filelist, Finset.mem_sort, Finset.mem_filter, List.mem_toFinset,
    mem_collectFiles]
  simp only [mem_dirChildren]
  exact and_comm

/-- C5 witness: on the sample filesystem with sources `b.png` and the
directory `d`, the direct child `d/a.png` is included (and the
subdirectory `d/sub` never contributes, because only files are kept). -/
theorem set_filelist_spec_witness :
    "d/a.png" ∈ set_filelist sampleFS ["png"] ["b.png", "d"] := by
  refine ((set_filelist_spec sampleFS ["png"] ["b.png", "d"]).2.2
    "d/a.png").mpr ⟨?_, "d", by simp, Or.inr ⟨?_, "a.png", ?_, ?_, ?_⟩⟩
  · decide
  · decide
  · decide
  · decide
  · decide

theorem reduceT_shift (T t : ℚ) (k : ℤ) (hT : T ≠ 0) :
    reduceT T (t + T * k) = reduceT T t := by
  unfold reduceT
  rw [ratFloor_eq_floor, ratFloor_eq_floor]
  have hdiv : (t + T * k) / T = t / T + k := by
    field_simp
    ring
  rw [hdiv, Int.floor_add_int]
  push_cast
  ring

theorem reduceT_bounds (T t : ℚ) (hT : 0 < T) :
    0 ≤ reduceT T t ∧ reduceT T t < T := by
  unfold reduceT
  rw [ratFloor_eq_floor]
  have h1 : (⌊t / T⌋ : ℚ) ≤ t / T := Int.floor_le _
  have h2 : t / T < ⌊t / T⌋ + 1 := Int.lt_floor_add_one _
  rw [le_div_iff hT] at h1
  rw [div_lt_iff hT] at h2
  constructor <;> nlinarith

theorem reduceT_eq_self (T t : ℚ) (hT : 0 < T) (h0 : 0 ≤ t) (h1 : t < T) :
    reduceT T t = t := by
  unfold reduceT
  rw [ratFloor_eq_floor]
  have hfl : ⌊t / T⌋ = 0 := by
    rw [Int.floor_eq_zero_iff]
    exact Set.mem_Ico.mpr ⟨div_nonneg h0 (le_of_lt hT), by
      rw [div_lt_one hT]
      exact h1⟩
  rw [hfl]
  push_cast
  ring

theorem reduceT_eq_sub (T t : ℚ) (hT : 0 < T) (h0 : T ≤ t) (h1 : t < 2 * T) :
    reduceT T t = t - T := by
  unfold reduceT
  rw [ratFloor_eq_floor]
  have hfl : ⌊t / T⌋ = 1 := by
    rw [Int.floor_eq_iff]
    constructor
    · push_cast
      rw [le_div_iff hT]
      linarith
    · push_cast
      rw [div_lt_iff hT]
      linarith
  rw [hfl]
  push_cast
  ring

theorem reduceT_add_left (T x c : ℚ) (hT : T ≠ 0) :
    reduceT T (x + c) = reduceT T (reduceT T x + c) := by
  have hx : x + c = (reduceT T x + c) + T * (ratFloor (x / T) : ℤ) := by
    unfold reduceT
    ring
  rw [hx, reduceT_shift _ _ _ hT]

theorem frameIdx_sandwich :
    ∀ (durs : List ℚ), (∀ d ∈ durs, 0 < d) →
    ∀ r : ℚ, 0 ≤ r → r < durs.sum →
      frameIdx durs r < durs.length ∧
      (durs.take (frameIdx durs r)).sum ≤ r ∧
      r < (durs.take (frameIdx durs r + 1)).sum := by
  intro durs
  induction durs with
  | nil =>
    intro _ r h0 hr
    simp only [List.sum_nil] at hr
    linarith
  | cons d rest ih =>
    intro hpos r h0 hr
    by_cases hlt : r < d
    · simp only [frameIdx, if_pos hlt]
      refine ⟨Nat.succ_pos _, by simpa using h0, ?_⟩
      simpa using hlt
    · simp only [frameIdx, if_neg hlt]
      have hrest : ∀ x ∈ rest, 0 < x := fun x hx => hpos x (by simp [hx])
      have h0' : 0 ≤ r - d := by linarith [not_lt.mp hlt]
      have hr' : r - d < rest.sum := by
        simp only [List.sum_cons] at hr
        linarith
      obtain ⟨hlen, hlow, hhigh⟩ := ih hrest (r - d) h0' hr'
      refine ⟨by simpa using Nat.succ_lt_succ hlen, ?_, ?_⟩
      · simp only [List.take_succ_cons, List.sum_cons]
        linarith
      · simp only [List.take_succ_cons, List.sum_cons]
        linarith

theorem advanceLoop_ne (durs : List ℚ) (i : ℕ) :
    ∀ (n : ℕ) (t t' : ℚ) (j : ℕ),
      advanceLoop durs i n t = some (t', j) → j ≠ i := by
  intro n
  induction n with
  | zero =>
    intro t t' j h
    simp [advanceLoop] at h
  | succ m ih =>
    intro t t' j h
    simp only [advanceLoop] at h
    by_cases hj : frameAt durs (1000 * (t + durs.getD i 0 / 1000)) ≠ i
    · rw [if_pos hj] at h
      simp only [Option.some.injEq, Prod.mk.injEq] at h
      exact h.2 ▸ hj
    · rw [if_neg hj] at h
      exact ih _ _ _ h

theorem take_sum_le (durs : List ℚ) (hpos : ∀ d ∈ durs, 0 ≤ d) (m : ℕ) :
    (durs.take m).sum ≤ durs.sum := by
  conv_rhs => rw [← List.take_append_drop m durs]
  rw [List.sum_append]
  have h0 : 0 ≤ (durs.drop m).sum :=
    List.sum_nonneg (fun x hx => hpos x (List.drop_subset m durs hx))
  linarith

theorem sum_take_succ_getD (durs : List ℚ) (i : ℕ) (hi : i < durs.length) :
    (durs.take (i + 1)).sum = (durs.take i).sum + durs.getD i 0 := by
  rw [List.getD_eq_getElem _ _ hi]
  exact List.sum_take_succ _ _ hi

theorem sum_sub_getD_pos (durs : List ℚ) (i : ℕ)
    (hpos : ∀ d ∈ durs, 0 < d) (hlen : 2 ≤ durs.length)
    (hi : i < durs.length) :
    0 < durs.sum - durs.getD i 0 := by
  have hsplit : (durs.take (i + 1)).sum + (durs.drop (i + 1)).sum
      = durs.sum := by
    rw [← List.sum_append, List.take_append_drop]
  have htake := sum_take_succ_getD durs i hi
  have htake0 : 0 ≤ (durs.take i).sum :=
    List.sum_nonneg fun x hx => le_of_lt (hpos x (List.take_subset _ _ hx))
  have hdrop0 : 0 ≤ (durs.drop (i + 1)).sum :=
    List.sum_nonneg fun x hx => le_of_lt (hpos x (List.drop_subset _ _ hx))
  rcases Nat.eq_zero_or_pos i with rfl | hip
  · have hne : durs.drop 1 ≠ [] := by
      intro hnil
      have hl : (durs.drop 1).length = durs.length - 1 := List.length_drop _ _
      rw [hnil] at hl
      simp only [List.length_nil] at hl
      omega
    have hdpos : 0 < (durs.drop 1).sum :=
      List.sum_pos _ (fun x hx => hpos x (List.drop_subset _ _ hx)) hne
    simp only [Nat.zero_add] at hsplit htake
    linarith
  · have hne : durs.take i ≠ [] := by
      intro hnil
      have hl : (durs.take i).length = min i durs.length := List.length_take _ _
      rw [hnil] at hl
      simp only [List.length_nil] at hl
      omega
    have htpos : 0 < (durs.take i).sum :=
      List.sum_pos _ (fun x hx => hpos x (List.take_subset _ _ hx)) hne
    linarith

theorem advanceLoop_progress (durs : List ℚ) (i : ℕ)
    (hpos : ∀ d ∈ durs, 0 < d) (hlen : 2 ≤ durs.length)
    (hi : i < durs.length) :
    ∀ (n : ℕ) (t : ℚ),
      (durs.take i).sum ≤ reduceT durs.sum (1000 * t) →
      reduceT durs.sum (1000 * t) < (durs.take (i + 1)).sum →
      reduceT durs.sum (1000 * t) - (durs.take i).sum
        ≤ n * (durs.sum - durs.getD i 0) →
      ∃ t' j, advanceLoop durs i (n + 1) t = some (t', j) ∧ j ≠ i := by
  have hpos0 : ∀ d ∈ durs, 0 ≤ d := fun d hd => le_of_lt (hpos d hd)
  have hne : durs ≠ [] := by
    intro hnil
    rw [hnil] at hlen
    simp at hlen
  have hT : 0 < durs.sum := List.sum_pos _ hpos hne
  have hd : 0 < durs.getD i 0 := by
    rw [List.getD_eq_getElem _ _ hi]
    exact hpos _ (List.getElem_mem _)
  have hTd : 0 < durs.sum - durs.getD i 0 := sum_sub_getD_pos durs i hpos hlen hi
  have htake := sum_take_succ_getD durs i hi
  have htop : (durs.take (i + 1)).sum ≤ durs.sum := take_sum_le durs hpos0 _
  have htake0 : 0 ≤ (durs.take i).sum :=
    List.sum_nonneg fun x hx => hpos0 x (List.take_subset _ _ hx)
  have habs : ∀ u : ℚ, 1000 * (u + durs.getD i 0 / 1000)
      = 1000 * u + durs.getD i 0 := by
    intro u
    ring
  intro n
  induction n with
  | zero =>
    intro t h1 h2 h3
    rw [Nat.cast_zero, zero_mul] at h3
    have hr0 : reduceT durs.sum (1000 * t) = (durs.take i).sum := by linarith
    have hstep : reduceT durs.sum (1000 * t + durs.getD i 0)
        = reduceT durs.sum ((durs.take (i + 1)).sum) := by
      rw [reduceT_add_left _ _ _ (ne_of_gt hT), hr0, htake]
    by_cases hcase : (durs.take (i + 1)).sum < durs.sum
    · have hr' : reduceT durs.sum (1000 * t + durs.getD i 0)
          = (durs.take (i + 1)).sum := by
        rw [hstep]
        exact reduceT_eq_self _ _ hT (by linarith) hcase
      have hsw := frameIdx_sandwich durs hpos
        ((durs.take (i + 1)).sum) (by linarith) hcase
      have hj : frameIdx durs ((durs.take (i + 1)).sum) ≠ i := by
        intro hji
        rw [hji] at hsw
        linarith [hsw.2.2]
      refine ⟨t + durs.getD i 0 / 1000,
        frameAt durs (1000 * (t + durs.getD i 0 / 1000)), ?_, ?_⟩
      · simp only [advanceLoop]
        rw [if_pos ?hcnd]
        case hcnd =>
          rw [habs t]
          unfold frameAt
          rw [hr']
          exact hj
      · rw [habs t]
        unfold frameAt
        rw [hr']
        exact hj
    · have heq : (durs.take (i + 1)).sum = durs.sum := le_antisymm htop
        (not_lt.mp hcase)
      have hr' : reduceT durs.sum (1000 * t + durs.getD i 0) = 0 := by
        rw [hstep, heq]
        rw [reduceT_eq_sub _ _ hT (le_refl _) (by linarith)]
        ring
      have hsw := frameIdx_sandwich durs hpos 0 (le_refl 0) hT
      have hj : frameIdx durs 0 ≠ i := by
        intro hji
        rw [hji] at hsw
        have hp0 : (durs.take i).sum = 0 := le_antisymm hsw.2.1 htake0
        have : durs.getD i 0 = durs.sum := by linarith
        linarith
      refine ⟨t + durs.getD i 0 / 1000,
        frameAt durs (1000 * (t + durs.getD i 0 / 1000)), ?_, ?_⟩
      · simp only [advanceLoop]
        rw [if_pos ?hcnd2]
        case hcnd2 =>
          rw [habs t]
          unfold frameAt
          rw [hr']
          exact hj
      · rw [habs t]
        unfold frameAt
        rw [hr']
        exact hj
  | succ m ih =>
    intro t h1 h2 h3
    by_cases hj : frameAt durs (1000 * (t + durs.getD i 0 / 1000)) ≠ i
    · refine ⟨t + durs.getD i 0 / 1000,
        frameAt durs (1000 * (t + durs.getD i 0 / 1000)), ?_, hj⟩
      simp only [advanceLoop]
      rw [if_pos hj]
    · push_neg at hj
      have hb := reduceT_bounds durs.sum (1000 * t) hT
      have hshift : reduceT durs.sum (1000 * t + durs.getD i 0)
          = reduceT durs.sum (reduceT durs.sum (1000 * t) + durs.getD i 0) :=
        reduceT_add_left _ _ _ (ne_of_gt hT)
      have hTle : durs.sum ≤ reduceT durs.sum (1000 * t) + durs.getD i 0 := by
        by_contra hlt
        push_neg at hlt
        have hr' : reduceT durs.sum (1000 * t + durs.getD i 0)
            = reduceT durs.sum (1000 * t) + durs.getD i 0 := by
          rw [hshift]
          exact reduceT_eq_self _ _ hT (by linarith) hlt
        have hj' : frameIdx durs (reduceT durs.sum (1000 * t)
            + durs.getD i 0) = i := by
          have := hj
          rw [habs t] at this
          unfold frameAt at this
          rw [hr'] at this
          exact this
        have hsw := frameIdx_sandwich durs hpos
          (reduceT durs.sum (1000 * t) + durs.getD i 0) (by linarith) hlt
        rw [hj'] at hsw
        have := hsw.2.2
        rw [htake] at this
        linarith
      have hr' : reduceT durs.sum (1000 * t + durs.getD i 0)
          = reduceT durs.sum (1000 * t) + durs.getD i 0 - durs.sum := by
        rw [hshift]
        exact reduceT_eq_sub _ _ hT hTle (by linarith)
      have hrt' : reduceT durs.sum (1000 * (t + durs.getD i 0 / 1000))
          = reduceT durs.sum (1000 * t) + durs.getD i 0 - durs.sum := by
        rw [habs t]
        exact hr'
      have hj' : frameIdx durs (reduceT durs.sum (1000 * t)
          + durs.getD i 0 - durs.sum) = i := by
        have := hj
        unfold frameAt at this
        rw [hrt'] at this
        exact this
      have hbnew := reduceT_bounds durs.sum
        (1000 * (t + durs.getD i 0 / 1000)) hT
      rw [hrt'] at hbnew
      have hsw := frameIdx_sandwich durs hpos
        (reduceT durs.sum (1000 * t) + durs.getD i 0 - durs.sum)
        hbnew.1 hbnew.2
      rw [hj'] at hsw
      obtain ⟨t', j, hL, hjne⟩ := ih (t + durs.getD i 0 / 1000)
        (by rw [hrt']; exact hsw.2.1)
        (by rw [hrt']; exact hsw.2.2)
        (by rw [hrt']; push_cast at h3 ⊢; linarith)
      refine ⟨t', j, ?_, hjne⟩
      simp only [advanceLoop]
      rw [if_neg (fun hne => hne hj)]
      exact hL

theorem pilAdvance_changes (ps : PILAnim)
    (hps : if ps.imLoaded = true then 2 ≤ ps.total else 2 ≤ ps.converted) :
    (pilAdvance ps).i ≠ ps.i := by
  unfold pilAdvance
  by_cases hL : ps.imLoaded = true
  · rw [if_pos hL] at hps
    simp only [hL, Bool.not_true, Bool.false_eq_true, if_false]
    split
    · simp
    · simp only []
      intro h0
      have : ps.i = 0 := h0.symm
      omega
  · have hL' : ps.imLoaded = false := by
      revert hL
      cases ps.imLoaded <;> simp
    rw [if_neg hL] at hps
    simp only [hL', Bool.not_false, if_true]
    show (ps.i + 1) % ps.converted ≠ ps.i
    rcases lt_or_le ps.i ps.converted with hlt | hge
    · by_cases h2 : ps.i + 1 < ps.converted
      · rw [Nat.mod_eq_of_lt h2]
        omega
      · have he : ps.i + 1 = ps.converted := by omega
        rw [he, Nat.mod_self]
        omega
    · have hm := Nat.mod_lt (ps.i + 1) (show 0 < ps.converted by omega)
      omega

/-- C3: the GTK advance loop only ever returns with a changed frame index
(`j ≠ i`); with positive frame durations, at least two frames and the
iterator positioned in frame `i`, some fuel makes it return; and the PIL
advance always changes the current frame index on a timeline with at
least two frames. -/
theorem advance_changes_frame (durs : List ℚ) (i : ℕ) (t : ℚ) (ps : PILAnim)
    (hpos : ∀ d ∈ durs, 0 < d) (hlen : 2 ≤ durs.length)
    (hi : i < durs.length)
    (h1 : (durs.take i).sum ≤ reduceT durs.sum (1000 * t))
    (h2 : reduceT durs.sum (1000 * t) < (durs.take (i + 1)).sum)
    (hps : if ps.imLoaded = true then 2 ≤ ps.total else 2 ≤ ps.converted) :
    (∀ (m : ℕ) (u t' : ℚ) (j : ℕ),
      advanceLoop durs i m u = some (t', j) → j ≠ i) ∧
    (∃ (m : ℕ) (t' : ℚ) (j : ℕ),
      advanceLoop durs i m t = some (t', j) ∧ j ≠ i) ∧
    (pilAdvance ps).i ≠ ps.i := by
  refine ⟨advanceLoop_ne durs i, ?_, pilAdvance_changes ps hps⟩
  have hTd : 0 < durs.sum - durs.getD i 0 := sum_sub_getD_pos durs i hpos hlen hi
  obtain ⟨n, hn⟩ := exists_nat_ge
    ((reduceT durs.sum (1000 * t) - (durs.take i).sum)
      / (durs.sum - durs.getD i 0))
  have hb : reduceT durs.sum (1000 * t) - (durs.take i).sum
      ≤ n * (durs.sum - durs.getD i 0) := by
    rw [div_le_iff hTd] at hn
    linarith
  obtain ⟨t', j, hL, hj⟩ := advanceLoop_progress durs i hpos hlen hi n t h1 h2 hb
  exact ⟨n + 1, t', j, hL, hj⟩

/-- C3 witness: timeline `[100, 200]` (ms), iterator showing frame 0 at
display time 1/20 s; the advance loop returns a different frame, and the
PIL wrapper at frame 0 of 2 converted frames also changes index. -/
theorem advance_changes_frame_witness :
    (∃ (m : ℕ) (t' : ℚ) (j : ℕ),
      advanceLoop [100, 200] 0 m (1/20) = some (t', j) ∧ j ≠ 0) ∧
    (pilAdvance ⟨2, 2, 0, false⟩).i ≠ (⟨2, 2, 0, false⟩ : PILAnim).i := by
  have e1 : ([100, 200] : List ℚ).sum = 300 := by norm_num
  have e2 : (1000 : ℚ) * (1 / 20) = 50 := by norm_num
  have e3 : reduceT 300 50 = 50 :=
    reduceT_eq_self 300 50 (by norm_num) (by norm_num) (by norm_num)
  have h := advance_changes_frame [100, 200] 0 (1 / 20) ⟨2, 2, 0, false⟩
    (by
      intro d hd
      simp only [List.mem_cons, List.not_mem_nil, or_false] at hd
      rcases hd with rfl | rfl <;> norm_num)
    (by norm_num) (by norm_num)
    (by rw [e1, e2, e3]; norm_num)
    (by rw [e1, e2, e3]; norm_num)
    (by norm_num)
  exact ⟨h.2.1, h.2.2⟩

end Piew
